import Mathlib

/-!
# Verification of `gen-similar-text.cpp`

A shallow embedding of the lexeme-transition text generator.  The C++ data
structures are modelled as follows:

* `std::unordered_map` becomes an insertion-ordered association list
  (`alistFind` mirrors `find`, `alistTryEmplace` mirrors `try_emplace`,
  `alistModify` mirrors writing through the iterator returned by
  `try_emplace`).  Association lists built through these operations have
  pairwise distinct keys, so "first match" agrees with the map semantics.
* String interning by map-key identity is modelled at the value level:
  the pointer stored into a successor vector always points at the interned
  string equal to the successor's text, so the embedding stores the text.
* `std::mt19937` outputs are modelled by an oracle stream `g : Nat → Nat`;
  `std::uniform_int_distribution(a, b)` applied to an engine output `n` is
  modelled by `a + n % (b - a + 1)`, the canonical surjection onto `[a, b]`.
* The `ERR` macro (which `abort()`s the process) and the undefined behaviour
  of dereferencing an end-of-sequence `sregex_token_iterator` are modelled by
  `Option`: `none` is a faulting/aborting computation.
-/

set_option linter.unusedSectionVars false

namespace GenSimilarText

/-- `kSoftLexLimit` from the source (the configured soft limit). -/
def kSoftLexLimit : Nat := 500

/-- `kStartingLex` from the source: the sentinel lexeme. -/
def kStartingLex : String := "."

/-- `kTerminatorLex` from the source (aliases `kStartingLex`). -/
def kTerminatorLex : String := kStartingLex

/-! ## Character classes of the lexing regexes

`[[:w:]]` in `std::regex` is `[A-Za-z0-9_]`; `[[:punct:]]` under the C locale
is the four ASCII ranges 33–47, 58–64, 91–96, 123–126; `operator>>`
whitespace is space, `\t`, `\n`, `\v`, `\f`, `\r`. -/

def isWordChar (c : Char) : Bool := c.isAlpha || c.isDigit || c == '_'

def isPunctChar (c : Char) : Bool :=
  let n := c.toNat
  (33 ≤ n && n ≤ 47) || (58 ≤ n && n ≤ 64) || (91 ≤ n && n ≤ 96) || (123 ≤ n && n ≤ 126)

def isSpaceChar (c : Char) : Bool :=
  c == ' ' || c == '\t' || c == '\n' || c == '\x0b' || c == '\x0c' || c == '\r'

/-! ## Association-list primitives -/

/-- `unordered_map::find`, as first-match lookup in an ordered list of
entries. -/
def alistFind {α β : Type} [BEq α] : List (α × β) → α → Option β
  | [], _ => none
  | e :: es, k => if e.1 == k then some e.2 else alistFind es k

/-- `unordered_map::try_emplace`: insert `(k, v)` only when `k` is absent. -/
def alistTryEmplace {α β : Type} [BEq α] (l : List (α × β)) (k : α) (v : β) :
    List (α × β) :=
  match alistFind l k with
  | some _ => l
  | none => l ++ [(k, v)]

/-- Writing through the entry found for key `k` (the iterator returned by
`try_emplace`): replace the first value stored under `k` by `f` of it. -/
def alistModify {α β : Type} [BEq α] : List (α × β) → α → (β → β) → List (α × β)
  | [], _, _ => []
  | e :: es, k, f => if e.1 == k then (e.1, f e.2) :: es else e :: alistModify es k f

/-! ## The `Distr` class -/

/-- The state of the C++ `Distr` object: `m_model` (lexeme → successor
occurrence list) and `m_uniform_sitribution_states` (the per-size cache of
`uniform_int_distribution` objects, each remembered by its `(a, b)`
construction parameters, keyed by `size - 1` exactly as in the source). -/
structure Distr where
  model : List (String × List String)
  cache : List (Nat × (Nat × Nat))
  deriving Repr, DecidableEq

/-- A freshly constructed `Distr`. -/
def emptyDistr : Distr := ⟨[], []⟩

/-- `Distr::uniqueLexCount`: the number of keys of `m_model`. -/
def uniqueLexCount (d : Distr) : Nat := d.model.length

/-- Lookup of a lexeme's stored successor sequence (`m_model.find`). -/
def lookupModel (d : Distr) (k : String) : Option (List String) :=
  alistFind d.model k

/-- `Distr::add(curLex, nextLex)`:
`try_emplace(nextLex)`, then `try_emplace(curLex).first->second.push_back(ptr)`.
The returned interned pointer is the successor's text. -/
def add (d : Distr) (curLex nextLex : String) : Distr :=
  let m1 := alistTryEmplace d.model nextLex []
  let m2 := alistTryEmplace m1 curLex []
  { d with model := alistModify m2 curLex (fun v => v ++ [nextLex]) }

/-- `Distr::nextLex(curLex)` given one engine output `g`.

`m_model[curLex]` (`operator[]`) inserts an empty entry when `curLex` is
absent; an empty successor vector triggers `ERR` (process abort, modelled as
`none`).  Otherwise the distribution object for `size` is fetched from the
cache by `try_emplace(size - 1, 0, size - 1)` and applied to the engine
output; the drawn index selects the successor.  An out-of-range index (never
reachable with a well-formed cache) would be an out-of-bounds vector access,
modelled by the partiality of `List.getElem?`. -/
def nextLex (d : Distr) (curLex : String) (g : Nat) : Option String × Distr :=
  let model' := alistTryEmplace d.model curLex []
  let distrData := (alistFind model' curLex).getD []
  let size := distrData.length
  if size = 0 then
    (none, { d with model := model' })
  else
    let cache' := alistTryEmplace d.cache (size - 1) (0, size - 1)
    let params := (alistFind cache' (size - 1)).getD (0, size - 1)
    let idx := params.1 + g % (params.2 - params.1 + 1)
    (distrData[idx]?, { d with model := model', cache := cache' })

/-- Well-formedness of the distribution cache: the object stored under key
`k` was constructed as `uniform_int_distribution(0, k)`.  Every reachable
`Distr` satisfies this, since entries are only created by
`try_emplace(size - 1, 0, size - 1)`. -/
def CacheOK (d : Distr) : Prop := ∀ e ∈ d.cache, e.2 = (0, e.1)

instance (d : Distr) : Decidable (CacheOK d) := by
  unfold CacheOK; infer_instance

/-! ## The Lexer -/

/-- Take the maximal leading run of word characters (`[[:w:]]+`, greedy). -/
def takeWordRun : List Char → List Char × List Char
  | [] => ([], [])
  | c :: cs =>
    if isWordChar c then
      let p := takeWordRun cs
      (c :: p.1, p.2)
    else ([], c :: cs)

/-- One pass of `sregex_token_iterator` over a chunk, with the source's
regex `([[:w:]]+[-'][[:w:]]+)|([[:w:]]+)|([.]{3})|([[:punct:]])`.

ECMAScript alternation is ordered, so at each position the four categories
are tried in turn; `regex_search` advances one character when no category
matches.  For the first alternative no backtracking into the first `[[:w:]]+`
is possible (a shorter run would have to end at a word character, which is
never `-` or `'`), so it matches exactly when the maximal word run is
followed by `-` or `'` and then at least one word character.  `fuel` bounds
the recursion by the length of the chunk; every step consumes at least one
character, so `fuel = length` never runs out. -/
def lexChunkGo : Nat → List Char → List String
  | 0, _ => []
  | _, [] => []
  | fuel + 1, c :: cs =>
    if isWordChar c then
      let p1 := takeWordRun (c :: cs)
      match p1.2 with
      | d :: ds =>
        if (d == '-' || d == '\'') &&
            (match ds with | e :: _ => isWordChar e | [] => false) then
          let p2 := takeWordRun ds
          (p1.1 ++ d :: p2.1).asString :: lexChunkGo fuel p2.2
        else
          p1.1.asString :: lexChunkGo fuel p1.2
      | [] => [p1.1.asString]
    else
      match c, cs with
      | '.', '.' :: '.' :: rest => "..." :: lexChunkGo fuel rest
      | _, _ =>
        if isPunctChar c then String.singleton c :: lexChunkGo fuel cs
        else lexChunkGo fuel cs

/-- All lexemes of one whitespace-delimited chunk, in order. -/
def lexChunk (s : String) : List String :=
  lexChunkGo s.length s.toList

/-- Maximal leading run of non-whitespace characters (one `operator>>`
read). -/
def takeNonSpaceRun : List Char → List Char × List Char
  | [] => ([], [])
  | c :: cs =>
    if isSpaceChar c then ([], c :: cs)
    else
      let p := takeNonSpaceRun cs
      (c :: p.1, p.2)

/-- `while (in >> chunk)`: the whitespace-delimited chunks of the input —
skip whitespace, then read a maximal non-whitespace run, repeatedly.  `fuel`
bounds the recursion by the input length; every step consumes at least one
character. -/
def chunksGo : Nat → List Char → List String
  | 0, _ => []
  | _, [] => []
  | fuel + 1, c :: cs =>
    if isSpaceChar c then chunksGo fuel cs
    else
      let p := takeNonSpaceRun (c :: cs)
      p.1.asString :: chunksGo fuel p.2

def chunksOf (s : String) : List String :=
  chunksGo s.length s.toList

/-- The `(predecessor, lexeme)` pairs fed to `Distr::add` while processing
the lexemes of one chunk: the incoming predecessor links the first lexeme,
afterwards each lexeme's predecessor is its left neighbour in the chunk
(`*prevIt`). -/
def chunkPairs : String → List String → List (String × String)
  | _, [] => []
  | pred, t :: ts => (pred, t) :: chunkPairs t ts

/-- The trace of `add` calls of the parse loop of `main`, over the chunks'
lexeme lists.  `last` is `prevChunkLastLexStrPtr`: the last lexeme of the
most recent chunk, persisted across chunk boundaries (`none` initially, in
which case the sentinel `kStartingLex` is the predecessor).  A chunk with no
lexemes makes the source dereference the end-of-sequence
`sregex_token_iterator` (`DBG_APPEND(*it)` runs before `it` is compared with
the end iterator) — undefined behaviour, modelled as the fault `none`. -/
def lexPairs : Option String → List (List String) → Option (List (String × String))
  | _, [] => some []
  | last, c :: cs =>
    match c with
    | [] => none
    | t :: ts =>
      let pred := match last with | some p => p | none => kStartingLex
      match lexPairs (some (ts.getLastD t)) cs with
      | none => none
      | some rest => some (chunkPairs pred (t :: ts) ++ rest)

/-- Building the model is folding `Distr::add` over the pair trace.  (In the
source the `add` calls are interleaved with the token iteration; the control
flow of the loop does not depend on the model, so the trace-then-fold
decomposition is exact.) -/
def buildModel (d : Distr) (ps : List (String × String)) : Distr :=
  ps.foldl (fun d p => add d p.1 p.2) d

/-- The whole parse phase of `main`, from the raw input text to the trace of
`add` calls. -/
def parseInput (s : String) : Option (List (String × String)) :=
  lexPairs none ((chunksOf s).map lexChunk)

/-- Position, in the overall pair trace, of the first lexeme of chunk `ci`. -/
def chunkOffset (tokss : List (List String)) (ci : Nat) : Nat :=
  ((tokss.take ci).flatten).length

/-! ## The generator -/

/-- The `is_punctation` lambda of `main`: `regex_search` with
`^(([.]{3})|[[:punct:]])$`, i.e. the whole lexeme is `...` or one
punctuation character. -/
def isPunctation (lex : String) : Bool :=
  lex == "..." ||
    (match lex.toList with
     | [c] => isPunctChar c
     | _ => false)

/-- The generation loop of `main`.  Each iteration emits the current `lex`,
draws `lex = distr.nextLex(lex)` (engine outputs come from the oracle `g`,
consumed at index `t`), emits a space unless the freshly drawn lexeme is
punctuation-classified, increments the counter and stops once the counter
exceeds `limit` and the drawn lexeme is the terminator — emitting that
terminator.  The output records each emitted lexeme with the flag "a space
was emitted after it".  `none` models `ERR` aborting the process inside
`nextLex` (or exhaustion of the modelling fuel on a non-terminating walk). -/
def genLoop (g : Nat → Nat) (limit : Nat) :
    Nat → Distr → String → Nat → Nat → Option (List (String × Bool))
  | 0, _, _, _, _ => none
  | fuel + 1, d, lex, i, t =>
    match (nextLex d lex (g t)).1 with
    | none => none
    | some newLex =>
      let d' := (nextLex d lex (g t)).2
      let sp := !isPunctation newLex
      if limit < i + 1 && newLex == kTerminatorLex then
        some [(lex, sp), (newLex, false)]
      else
        match genLoop g limit fuel d' newLex (i + 1) (t + 1) with
        | none => none
        | some out => some ((lex, sp) :: out)

/-- The generation phase of `main`: the initial draw
`lex = distr.nextLex(kStartingLex)` followed by the loop, with counter `i`
starting at `0`. -/
def generate (d : Distr) (g : Nat → Nat) (limit fuel : Nat) :
    Option (List (String × Bool)) :=
  match (nextLex d kStartingLex (g 0)).1 with
  | none => none
  | some lex0 => genLoop g limit fuel ((nextLex d kStartingLex (g 0)).2) lex0 0 1

/-! ## Association-list lemmas -/

section AList

variable {α β : Type} [BEq α] [LawfulBEq α]

theorem alistFind_append (l₁ l₂ : List (α × β)) (k : α) :
    alistFind (l₁ ++ l₂) k =
      (match alistFind l₁ k with
       | some v => some v
       | none => alistFind l₂ k) := by
  induction l₁ with
  | nil => simp [alistFind]
  | cons e es ih =>
    by_cases h : e.1 == k <;> simp [alistFind, h, ih]

theorem alistFind_eq_none_iff (l : List (α × β)) (k : α) :
    alistFind l k = none ↔ k ∉ l.map Prod.fst := by
  induction l with
  | nil => simp [alistFind]
  | cons e es ih =>
    simp only [alistFind, List.map_cons, List.mem_cons]
    by_cases h : e.1 == k
    · have hk : e.1 = k := eq_of_beq h
      simp [h, hk]
    · have hk : ¬(k = e.1) := fun hkk => by simp [hkk] at h
      simp [h, ih, hk]

theorem alistFind_mem {l : List (α × β)} {k : α} {v : β}
    (h : alistFind l k = some v) : ∃ e ∈ l, e.1 = k ∧ e.2 = v := by
  induction l with
  | nil => simp [alistFind] at h
  | cons e es ih =>
    by_cases hk : e.1 == k
    · simp only [alistFind, hk, if_pos] at h
      exact ⟨e, by simp, eq_of_beq hk, by simpa using h⟩
    · simp only [alistFind, hk] at h
      obtain ⟨e', he', hk', hv'⟩ := ih (by simpa using h)
      exact ⟨e', by simp [he'], hk', hv'⟩

theorem alistTryEmplace_of_isSome {l : List (α × β)} {k : α} (v : β)
    (h : (alistFind l k).isSome) : alistTryEmplace l k v = l := by
  unfold alistTryEmplace
  cases hf : alistFind l k with
  | some w => rfl
  | none => rw [hf] at h; simp at h

theorem alistTryEmplace_of_none {l : List (α × β)} {k : α} (v : β)
    (h : alistFind l k = none) : alistTryEmplace l k v = l ++ [(k, v)] := by
  unfold alistTryEmplace
  rw [h]

theorem alistFind_tryEmplace_self (l : List (α × β)) (k : α) (v : β) :
    alistFind (alistTryEmplace l k v) k = some ((alistFind l k).getD v) := by
  cases hf : alistFind l k with
  | some w =>
    rw [alistTryEmplace_of_isSome v (by simp [hf]), hf]
    rfl
  | none =>
    rw [alistTryEmplace_of_none v hf, alistFind_append, hf]
    simp [alistFind]

theorem alistFind_tryEmplace_ne (l : List (α × β)) {k k' : α} (v : β)
    (h : k' ≠ k) : alistFind (alistTryEmplace l k v) k' = alistFind l k' := by
  cases hf : alistFind l k with
  | some w => rw [alistTryEmplace_of_isSome v (by simp [hf])]
  | none =>
    rw [alistTryEmplace_of_none v hf, alistFind_append]
    cases hf' : alistFind l k' with
    | some w => rfl
    | none =>
      have : ¬(k == k') := fun hb => h (eq_of_beq hb).symm
      simp [alistFind, this]

theorem map_fst_tryEmplace_toFinset [DecidableEq α] (l : List (α × β)) (k : α) (v : β) :
    ((alistTryEmplace l k v).map Prod.fst).toFinset =
      insert k (l.map Prod.fst).toFinset := by
  cases hf : alistFind l k with
  | some w =>
    rw [alistTryEmplace_of_isSome v (by simp [hf])]
    have hk : k ∈ l.map Prod.fst := by
      by_contra hmem
      rw [← alistFind_eq_none_iff (β := β) l k] at hmem
      simp [hmem] at hf
    rw [Finset.insert_eq_self.mpr (by simpa using hk)]
  | none =>
    rw [alistTryEmplace_of_none v hf]
    ext a
    simp [or_comm]

theorem map_fst_tryEmplace_nodup (l : List (α × β)) (k : α) (v : β)
    (h : (l.map Prod.fst).Nodup) :
    ((alistTryEmplace l k v).map Prod.fst).Nodup := by
  cases hf : alistFind l k with
  | some w => rw [alistTryEmplace_of_isSome v (by simp [hf])]; exact h
  | none =>
    rw [alistTryEmplace_of_none v hf]
    have hk : k ∉ l.map Prod.fst := (alistFind_eq_none_iff l k).mp hf
    simp only [List.map_append, List.map_cons, List.map_nil]
    refine List.Nodup.append h (by simp) ?_
    intro a ha hb
    have hak : a = k := by simpa using hb
    exact hk (hak ▸ ha)

theorem map_fst_modify (l : List (α × β)) (k : α) (f : β → β) :
    (alistModify l k f).map Prod.fst = l.map Prod.fst := by
  induction l with
  | nil => rfl
  | cons e es ih =>
    by_cases h : e.1 == k <;> simp [alistModify, h, ih]

theorem alistFind_modify_self (l : List (α × β)) (k : α) (f : β → β) :
    alistFind (alistModify l k f) k = (alistFind l k).map f := by
  induction l with
  | nil => simp [alistModify, alistFind]
  | cons e es ih =>
    by_cases h : e.1 == k <;> simp [alistModify, alistFind, h, ih]

theorem alistFind_modify_ne (l : List (α × β)) {k k' : α} (f : β → β)
    (h : k' ≠ k) : alistFind (alistModify l k f) k' = alistFind l k' := by
  induction l with
  | nil => simp [alistModify]
  | cons e es ih =>
    by_cases hk : e.1 == k
    · have he1 : ¬(e.1 == k') := by
        intro hb
        exact h ((eq_of_beq hb).symm.trans (eq_of_beq hk))
      simp [alistModify, alistFind, hk, he1]
    · simp [alistModify, alistFind, hk, ih]

end AList

/-! ## Lemmas about `Distr.add` and `buildModel` -/

/-- The keys of the model (the interned lexemes). -/
def keys (d : Distr) : List String := d.model.map Prod.fst

/-- Complete case description of a lookup after `add`. -/
theorem lookup_add (d : Distr) (p s k : String) :
    lookupModel (add d p s) k =
      if k = p then some (((lookupModel d p).getD []) ++ [s])
      else if k = s then some ((lookupModel d s).getD [])
      else lookupModel d k := by
  unfold add lookupModel
  simp only
  by_cases hp : k = p
  · subst hp
    rw [alistFind_modify_self, alistFind_tryEmplace_self]
    by_cases hs : k = s
    · subst hs
      rw [alistFind_tryEmplace_self]
      simp
    · rw [alistFind_tryEmplace_ne _ _ hs]
      simp
  · rw [alistFind_modify_ne _ _ hp, alistFind_tryEmplace_ne _ _ hp]
    by_cases hs : k = s
    · subst hs
      rw [alistFind_tryEmplace_self]
      simp [if_neg hp]
    · rw [alistFind_tryEmplace_ne _ _ hs]
      simp [if_neg hp, if_neg hs]

theorem cache_add (d : Distr) (p s : String) : (add d p s).cache = d.cache := rfl

theorem keys_add_toFinset (d : Distr) (p s : String) :
    (keys (add d p s)).toFinset = insert p (insert s (keys d).toFinset) := by
  unfold add keys
  simp only
  rw [map_fst_modify, map_fst_tryEmplace_toFinset, map_fst_tryEmplace_toFinset]

theorem keys_add_nodup (d : Distr) (p s : String) (h : (keys d).Nodup) :
    (keys (add d p s)).Nodup := by
  unfold add keys
  simp only
  rw [map_fst_modify]
  exact map_fst_tryEmplace_nodup _ _ _ (map_fst_tryEmplace_nodup _ _ _ h)

theorem buildModel_cons (d : Distr) (pr : String × String) (ps : List (String × String)) :
    buildModel d (pr :: ps) = buildModel (add d pr.1 pr.2) ps := rfl

theorem buildModel_cache (d : Distr) (ps : List (String × String)) :
    (buildModel d ps).cache = d.cache := by
  induction ps generalizing d with
  | nil => rfl
  | cons pr ps ih => rw [buildModel_cons, ih, cache_add]

/-- `add` never removes a key or an element of a successor sequence. -/
theorem lookup_add_grow (d : Distr) (p s k : String) {S : List String}
    (h : lookupModel d k = some S) :
    ∃ T, lookupModel (add d p s) k = some (S ++ T) := by
  rw [lookup_add]
  by_cases hp : k = p
  · subst hp
    exact ⟨[s], by simp [h]⟩
  · by_cases hs : k = s
    · subst hs
      exact ⟨[], by simp [h, hp]⟩
    · exact ⟨[], by simp [h, hp, hs]⟩

theorem buildModel_grow (d : Distr) (ps : List (String × String)) (k : String)
    {S : List String} (h : lookupModel d k = some S) :
    ∃ T, lookupModel (buildModel d ps) k = some (S ++ T) := by
  induction ps generalizing d S with
  | nil => exact ⟨[], by simp [buildModel, h]⟩
  | cons pr ps ih =>
    obtain ⟨T₁, h₁⟩ := lookup_add_grow d pr.1 pr.2 k h
    obtain ⟨T₂, h₂⟩ := ih (add d pr.1 pr.2) h₁
    exact ⟨T₁ ++ T₂, by rw [buildModel_cons, h₂, List.append_assoc]⟩

theorem buildModel_isSome (d : Distr) (ps : List (String × String)) (k : String)
    (h : (lookupModel d k).isSome) : (lookupModel (buildModel d ps) k).isSome := by
  cases hS : lookupModel d k with
  | none => rw [hS] at h; simp at h
  | some S =>
    obtain ⟨T, hT⟩ := buildModel_grow d ps k hS
    simp [hT]

theorem buildModel_mem_isSome (d : Distr) (ps : List (String × String))
    (p s : String) (h : (p, s) ∈ ps) :
    (lookupModel (buildModel d ps) p).isSome ∧
      (lookupModel (buildModel d ps) s).isSome := by
  induction ps generalizing d with
  | nil => simp at h
  | cons pr ps ih =>
    rw [List.mem_cons] at h
    cases h with
    | inl h =>
      subst h
      rw [buildModel_cons]
      constructor
      · exact buildModel_isSome _ ps p (by rw [lookup_add]; simp)
      · refine buildModel_isSome _ ps s ?_
        rw [lookup_add]
        by_cases hs : s = p <;> simp [hs]
    | inr h => exact ih (add d pr.1 pr.2) h

theorem buildModel_keys_toFinset (d : Distr) (ps : List (String × String)) :
    (keys (buildModel d ps)).toFinset =
      ((keys d).toFinset ∪ (ps.map Prod.fst).toFinset) ∪ (ps.map Prod.snd).toFinset := by
  induction ps generalizing d with
  | nil => simp [buildModel]
  | cons pr ps ih =>
    rw [buildModel_cons, ih, keys_add_toFinset]
    ext a
    simp only [Finset.mem_union, Finset.mem_insert, List.map_cons, List.toFinset_cons,
      List.mem_toFinset]
    tauto

theorem buildModel_keys_nodup (d : Distr) (ps : List (String × String))
    (h : (keys d).Nodup) : (keys (buildModel d ps)).Nodup := by
  induction ps generalizing d with
  | nil => exact h
  | cons pr ps ih => exact ih _ (keys_add_nodup _ _ _ h)

theorem uniqueLexCount_eq_keys_length (d : Distr) :
    uniqueLexCount d = (keys d).length := by
  simp [uniqueLexCount, keys]

/-! ## Lemmas about `Distr.nextLex` -/

/-- Evaluation of `nextLex` on a known lexeme with a non-empty successor
sequence: the drawn index is `g % |S|` — exactly what a freshly constructed
`uniform_int_distribution(0, |S| - 1)` would produce from the engine output
`g`, whether or not the cached object is reused. -/
theorem nextLex_eval (d : Distr) (curLex : String) (S : List String) (g : Nat)
    (hc : CacheOK d) (hS : lookupModel d curLex = some S) (hne : S ≠ []) :
    (nextLex d curLex g).1 = S[g % S.length]? ∧
      (nextLex d curLex g).2.model = d.model ∧
      CacheOK (nextLex d curLex g).2 := by
  have hfind : alistFind d.model curLex = some S := hS
  have hlen : S.length ≠ 0 := fun h => hne (List.eq_nil_of_length_eq_zero h)
  have h1 : alistTryEmplace d.model curLex ([] : List String) = d.model :=
    alistTryEmplace_of_isSome _ (by simp [hfind])
  have hparams :
      (alistFind (alistTryEmplace d.cache (S.length - 1) (0, S.length - 1))
        (S.length - 1)).getD (0, S.length - 1) = (0, S.length - 1) := by
    rw [alistFind_tryEmplace_self]
    cases hf : alistFind d.cache (S.length - 1) with
    | none => simp
    | some pr =>
      obtain ⟨e, he, hek, hev⟩ := alistFind_mem hf
      have := hc e he
      simp [hev ▸ hek ▸ this]
  have hcache : ∀ e ∈ alistTryEmplace d.cache (S.length - 1) (0, S.length - 1),
      e.2 = (0, e.1) := by
    intro e he
    cases hf : alistFind d.cache (S.length - 1) with
    | some pr =>
      rw [alistTryEmplace_of_isSome _ (by simp [hf])] at he
      exact hc e he
    | none =>
      rw [alistTryEmplace_of_none _ hf] at he
      rcases List.mem_append.mp he with hm | hm
      · exact hc e hm
      · simp at hm
        subst hm
        rfl
  simp only [nextLex, h1, hfind, Option.getD_some, if_neg hlen, hparams]
  refine ⟨?_, trivial, ?_⟩
  · show S[0 + g % (S.length - 1 - 0 + 1)]? = S[g % S.length]?
    have hsucc : S.length - 1 + 1 = S.length :=
      Nat.succ_pred_eq_of_pos (Nat.pos_of_ne_zero hlen)
    simp [hsucc]
  · exact fun e he => hcache e he

/-- `nextLex` on a lexeme with no entry: `operator[]` inserts an empty entry
(at the end of the table) and the call faults. -/
theorem nextLex_fail_absent (d : Distr) (curLex : String) (g : Nat)
    (h : lookupModel d curLex = none) :
    (nextLex d curLex g).1 = none ∧
      (nextLex d curLex g).2.model = d.model ++ [(curLex, [])] := by
  have h' : alistFind d.model curLex = none := h
  have h1 : alistTryEmplace d.model curLex ([] : List String) = d.model ++ [(curLex, [])] :=
    alistTryEmplace_of_none _ h'
  have h2 : alistFind (d.model ++ [(curLex, ([] : List String))]) curLex = some [] := by
    rw [alistFind_append, h']
    simp [alistFind]
  simp [nextLex, h1, h2]

/-- `nextLex` on a lexeme whose entry is empty: the call faults and the
model is untouched. -/
theorem nextLex_fail_empty (d : Distr) (curLex : String) (g : Nat)
    (h : lookupModel d curLex = some []) :
    (nextLex d curLex g).1 = none ∧ (nextLex d curLex g).2.model = d.model := by
  have h' : alistFind d.model curLex = some ([] : List String) := h
  have h1 : alistTryEmplace d.model curLex ([] : List String) = d.model :=
    alistTryEmplace_of_isSome _ (by simp [h'])
  simp [nextLex, h1, h']

/-! ## Lemmas about the Lexer pair trace -/

theorem chunkPairs_length (p : String) (ts : List String) :
    (chunkPairs p ts).length = ts.length := by
  induction ts generalizing p with
  | nil => rfl
  | cons t ts ih => simp [chunkPairs, ih]

theorem chunkPairs_snd (p : String) (ts : List String) :
    (chunkPairs p ts).map Prod.snd = ts := by
  induction ts generalizing p with
  | nil => rfl
  | cons t ts ih => simp [chunkPairs, ih]

/-- Chunk concatenation: the carried predecessor across the boundary is the
last lexeme before it. -/
theorem chunkPairs_append (p : String) (ts us : List String) :
    chunkPairs p (ts ++ us) = chunkPairs p ts ++ chunkPairs (ts.getLastD p) us := by
  induction ts generalizing p with
  | nil => simp [chunkPairs]
  | cons t ts ih =>
    have h0 : chunkPairs p ((t :: ts) ++ us) = (p, t) :: chunkPairs t (ts ++ us) := rfl
    rw [h0, ih, List.getLastD_cons]
    rfl

theorem chunkPairs_getElem_fst (p : String) (ts : List String) (k : Nat)
    (h : k < ts.length) :
    ((chunkPairs p ts)[k]?).map Prod.fst = (p :: ts)[k]? := by
  induction ts generalizing p k with
  | nil => simp at h
  | cons t ts ih =>
    cases k with
    | zero => simp [chunkPairs]
    | succ k =>
      have h' : k < ts.length := by simpa using h
      simp [chunkPairs, ih t k h']

theorem chunkPairs_getElem_snd (p : String) (ts : List String) (k : Nat) :
    ((chunkPairs p ts)[k]?).map Prod.snd = ts[k]? := by
  induction ts generalizing p k with
  | nil => simp [chunkPairs]
  | cons t ts ih =>
    cases k with
    | zero => simp [chunkPairs]
    | succ k => simp [chunkPairs, ih]

theorem chunkPairs_fst_subset (p : String) (ts : List String) :
    ∀ a ∈ (chunkPairs p ts).map Prod.fst, a = p ∨ a ∈ ts := by
  induction ts generalizing p with
  | nil => simp [chunkPairs]
  | cons t ts ih =>
    intro a ha
    simp only [chunkPairs, List.map_cons, List.mem_cons] at ha
    rcases ha with h | h
    · exact Or.inl h
    · rcases ih t a h with h' | h'
      · exact Or.inr (by simp [h'])
      · exact Or.inr (by simp [h'])

theorem chunkPairs_fst_head (p : String) (ts : List String) (h : ts ≠ []) :
    p ∈ (chunkPairs p ts).map Prod.fst := by
  cases ts with
  | nil => exact absurd rfl h
  | cons t ts => simp [chunkPairs]

/-- A successfully processed input has no zero-lexeme chunk. -/
theorem lexPairs_ne_nil {last : Option String} {tokss : List (List String)}
    {ps : List (String × String)} (h : lexPairs last tokss = some ps) :
    ∀ c ∈ tokss, c ≠ [] := by
  induction tokss generalizing last ps with
  | nil => simp
  | cons c cs ih =>
    cases c with
    | nil => simp [lexPairs] at h
    | cons t ts =>
      intro c' hc'
      rcases List.mem_cons.mp hc' with hc | hc
      · subst hc; simp
      · cases hrec : lexPairs (some (ts.getLastD t)) cs with
        | none =>
          rw [List.getLastD_eq_getLast?] at hrec
          simp [lexPairs, hrec] at h
        | some rest => exact ih hrec c' hc

/-- Closed form of the pair trace: when every chunk has at least one lexeme
(which holds in every completed run), the trace links each lexeme to the
immediately preceding lexeme of the flattened stream, starting from the
carried predecessor (the sentinel on a fresh parse). -/
theorem lexPairs_eq (last : Option String) (tokss : List (List String))
    (h : ∀ c ∈ tokss, c ≠ []) :
    lexPairs last tokss = some (chunkPairs (last.getD kStartingLex) tokss.flatten) := by
  induction tokss generalizing last with
  | nil => cases last <;> simp [lexPairs, chunkPairs]
  | cons c cs ih =>
    cases c with
    | nil => exact absurd rfl (h [] (by simp))
    | cons t ts =>
      have hcs : ∀ c ∈ cs, c ≠ [] := fun c hc => h c (List.mem_cons_of_mem _ hc)
      have hrec := ih (some (ts.getLastD t)) hcs
      simp only [lexPairs, hrec, Option.getD_some]
      cases last with
      | none =>
        simp only [List.flatten_cons, Option.getD_none]
        rw [chunkPairs_append, List.getLastD_cons]
      | some p =>
        simp only [List.flatten_cons, Option.getD_some]
        rw [chunkPairs_append, List.getLastD_cons]

/-! ## Counting lemma for uniform sampling -/

theorem card_filter_range_succ (p : Nat → Prop) [DecidablePred p] (n : Nat) :
    ((Finset.range (n + 1)).filter p).card =
      ((Finset.range n).filter (fun i => p (i + 1))).card + (if p 0 then 1 else 0) := by
  induction n with
  | zero => by_cases h : p 0 <;> simp [Finset.range_one, Finset.filter_singleton, h]
  | succ n ih =>
    have h1 : (n + 1) ∉ (Finset.range (n + 1)).filter p := by simp
    have h2 : n ∉ (Finset.range n).filter (fun i => p (i + 1)) := by simp
    by_cases hp : p (n + 1)
    · rw [Finset.range_succ, Finset.filter_insert, if_pos hp,
        Finset.card_insert_of_not_mem h1, ih]
      conv_rhs =>
        rw [Finset.range_succ, Finset.filter_insert]
      rw [if_pos hp, Finset.card_insert_of_not_mem h2]
      omega
    · rw [Finset.range_succ, Finset.filter_insert, if_neg hp, ih]
      conv_rhs =>
        rw [Finset.range_succ, Finset.filter_insert]
      rw [if_neg hp]

/-- Frequency law: among the `|S|` equally likely indices, exactly
`S.count x` of them select the lexeme `x`. -/
theorem card_filter_eq_count (S : List String) (x : String) :
    ((Finset.range S.length).filter (fun i => S[i]? = some x)).card = S.count x := by
  induction S with
  | nil => simp
  | cons a S ih =>
    rw [List.length_cons, card_filter_range_succ]
    simp only [List.getElem?_cons_succ, List.getElem?_cons_zero, ih, List.count_cons]
    by_cases hax : a = x
    · simp [hax]
    · have : ¬(a == x) := by simpa using hax
      simp [hax, this]

/-! ## Positional decomposition of the flattened lexeme stream -/

theorem flatten_decomp (tokss : List (List String)) (ci : Nat) (c : List String)
    (h : tokss[ci]? = some c) :
    tokss.flatten = ((tokss.take ci).flatten ++ c) ++ (tokss.drop (ci + 1)).flatten := by
  obtain ⟨hlt, hget⟩ := List.getElem?_eq_some.mp h
  conv_lhs => rw [← List.take_append_drop ci tokss]
  rw [List.flatten_append, List.drop_eq_getElem_cons hlt, hget, List.flatten_cons,
    List.append_assoc]

theorem chunkOffset_succ (tokss : List (List String)) (ci : Nat) (c : List String)
    (h : tokss[ci]? = some c) :
    chunkOffset tokss (ci + 1) = chunkOffset tokss ci + c.length := by
  unfold chunkOffset
  rw [List.take_succ, h, List.flatten_append]
  simp

/-! ## Lemmas about the generation loop -/

/-- Inversion of one successful iteration of the generation loop. -/
theorem genLoop_succ_inv (g : Nat → Nat) (limit fuel : Nat) (d : Distr)
    (lex : String) (i t : Nat) (out : List (String × Bool))
    (h : genLoop g limit (fuel + 1) d lex i t = some out) :
    ∃ newLex, (nextLex d lex (g t)).1 = some newLex ∧
      ((limit < i + 1 ∧ newLex = kTerminatorLex ∧
          out = [(lex, !isPunctation newLex), (newLex, false)]) ∨
        (¬(limit < i + 1 ∧ newLex = kTerminatorLex) ∧
          ∃ out', genLoop g limit fuel ((nextLex d lex (g t)).2) newLex (i + 1) (t + 1) =
              some out' ∧
            out = (lex, !isPunctation newLex) :: out')) := by
  simp only [genLoop] at h
  cases hn : (nextLex d lex (g t)).1 with
  | none => rw [hn] at h; simp at h
  | some newLex =>
    rw [hn] at h
    simp only [] at h
    refine ⟨newLex, rfl, ?_⟩
    by_cases hc : limit < i + 1 ∧ newLex = kTerminatorLex
    · have hb : (decide (limit < i + 1) && (newLex == kTerminatorLex)) = true := by
        simp [hc.1, hc.2]
      rw [if_pos hb] at h
      injection h with h
      exact Or.inl ⟨hc.1, hc.2, h.symm⟩
    · have hb : ¬((decide (limit < i + 1) && (newLex == kTerminatorLex)) = true) := by
        simpa [Bool.and_eq_true, decide_eq_true_eq, beq_iff_eq] using hc
      rw [if_neg hb] at h
      cases hrec : genLoop g limit fuel ((nextLex d lex (g t)).2) newLex (i + 1) (t + 1) with
      | none => rw [hrec] at h; simp at h
      | some out' =>
        rw [hrec] at h
        simp only [] at h
        injection h with h
        exact Or.inr ⟨hc, out', rfl, h.symm⟩

/-- The first lexeme a successful loop emits is the lexeme it entered with. -/
theorem genLoop_head (g : Nat → Nat) (limit fuel : Nat) (d : Distr)
    (lex : String) (i t : Nat) (out : List (String × Bool))
    (h : genLoop g limit fuel d lex i t = some out) :
    (out[0]?).map Prod.fst = some lex := by
  cases fuel with
  | zero => simp [genLoop] at h
  | succ fuel =>
    obtain ⟨newLex, hn, hcase⟩ := genLoop_succ_inv g limit fuel d lex i t out h
    rcases hcase with ⟨_, _, hout⟩ | ⟨_, out', _, hout⟩ <;> subst hout <;> simp

/-- Termination-shape of a successful loop started with counter `i`: at least
two lexemes are emitted, the counter strictly exceeded the limit when the
loop broke, the final emission is the terminator (with no trailing space),
and no earlier emission that was drawn after the counter passed the limit is
the terminator. -/
theorem genLoop_spec (g : Nat → Nat) (limit : Nat) :
    ∀ fuel d lex i t out, genLoop g limit fuel d lex i t = some out →
      2 ≤ out.length ∧
      limit < i + (out.length - 1) ∧
      out.getLast? = some (kTerminatorLex, false) ∧
      (∀ p e, 1 ≤ p → p + 1 < out.length → limit < i + p → out[p]? = some e →
        e.1 ≠ kTerminatorLex) := by
  intro fuel
  induction fuel with
  | zero => intro d lex i t out h; simp [genLoop] at h
  | succ fuel ih =>
    intro d lex i t out h
    obtain ⟨newLex, hn, hcase⟩ := genLoop_succ_inv g limit fuel d lex i t out h
    rcases hcase with ⟨hlim, hterm, hout⟩ | ⟨hnc, out', hrec, hout⟩
    · subst hout
      refine ⟨by simp, by simp; omega, by simp [hterm], ?_⟩
      intro p e hp hpl hplim hpe
      simp only [List.length_cons, List.length_nil] at hpl
      omega
    · subst hout
      obtain ⟨hlen', hlim', hlast', hmid'⟩ := ih _ _ _ _ _ hrec
      refine ⟨?_, ?_, ?_, ?_⟩
      · simp only [List.length_cons]; omega
      · simp only [List.length_cons]; omega
      · cases out' with
        | nil => simp at hlen'
        | cons y out'' => simpa only [List.getLast?_cons_cons] using hlast'
      · intro p e hp hpl hplim hpe
        cases p with
        | zero => omega
        | succ p =>
          rw [List.getElem?_cons_succ] at hpe
          cases p with
          | zero =>
            have hhead := genLoop_head g limit fuel _ newLex (i + 1) (t + 1) out' hrec
            rw [hpe] at hhead
            have he1 : e.1 = newLex := by simpa using hhead
            have hnt : newLex ≠ kTerminatorLex := by
              intro hcontra
              exact hnc ⟨by omega, hcontra⟩
            rw [he1]
            exact hnt
          | succ p' =>
            refine hmid' (p' + 1) e (by omega) ?_ (by omega) hpe
            simp only [List.length_cons] at hpl
            omega

/-- Spacing-shape of a successful loop: the space flag recorded with each
emission (other than the last) equals "the next emitted lexeme is not
punctuation-classified", and the final emission carries no space. -/
theorem genLoop_space (g : Nat → Nat) (limit : Nat) :
    ∀ fuel d lex i t out, genLoop g limit fuel d lex i t = some out →
      (∀ p e e', out[p]? = some e → out[p + 1]? = some e' →
        e.2 = !isPunctation e'.1) ∧
      (out.getLast?).map Prod.snd = some false := by
  intro fuel
  induction fuel with
  | zero => intro d lex i t out h; simp [genLoop] at h
  | succ fuel ih =>
    intro d lex i t out h
    obtain ⟨newLex, hn, hcase⟩ := genLoop_succ_inv g limit fuel d lex i t out h
    rcases hcase with ⟨hlim, hterm, hout⟩ | ⟨hnc, out', hrec, hout⟩
    · subst hout
      refine ⟨?_, by simp⟩
      intro p e e' hpe hpe'
      cases p with
      | zero =>
        simp only [List.getElem?_cons_zero, List.getElem?_cons_succ] at hpe hpe'
        injection hpe with hpe
        injection hpe' with hpe'
        rw [← hpe, ← hpe']
      | succ p =>
        cases p with
        | zero =>
          simp only [List.getElem?_cons_succ] at hpe'
          simp at hpe'
        | succ p =>
          simp only [List.getElem?_cons_succ] at hpe
          simp at hpe
    · subst hout
      obtain ⟨hadj', hlast'⟩ := ih _ _ _ _ _ hrec
      have hne' : out' ≠ [] := by
        intro hcontra
        rw [hcontra] at hlast'
        simp at hlast'
      refine ⟨?_, ?_⟩
      · intro p e e' hpe hpe'
        cases p with
        | zero =>
          simp only [List.getElem?_cons_zero] at hpe
          injection hpe with hpe
          rw [List.getElem?_cons_succ] at hpe'
          have hhead := genLoop_head g limit fuel _ newLex (i + 1) (t + 1) out' hrec
          rw [hpe'] at hhead
          have he1 : e'.1 = newLex := by simpa using hhead
          rw [← hpe, he1]
        | succ p =>
          rw [List.getElem?_cons_succ] at hpe hpe'
          exact hadj' p e e' hpe hpe'
      · cases out' with
        | nil => exact absurd rfl hne'
        | cons y out'' => simpa only [List.getLast?_cons_cons] using hlast'

/-- Inversion of the generation phase: a successful run performs the initial
draw from the sentinel and then runs the loop with counter `0`. -/
theorem generate_inv (d : Distr) (g : Nat → Nat) (limit fuel : Nat)
    (out : List (String × Bool)) (h : generate d g limit fuel = some out) :
    ∃ lex0, (nextLex d kStartingLex (g 0)).1 = some lex0 ∧
      genLoop g limit fuel ((nextLex d kStartingLex (g 0)).2) lex0 0 1 = some out := by
  unfold generate at h
  cases hn : (nextLex d kStartingLex (g 0)).1 with
  | none => rw [hn] at h; simp at h
  | some lex0 => rw [hn] at h; exact ⟨lex0, rfl, h⟩

/-! ## The claims -/

/-- C1: for every lexeme whose stored successor sequence `S` is non-empty,
`nextLex` draws the index a fresh `uniform_int_distribution(0, |S| - 1)`
would draw from the engine output (so the per-length caching does not change
the sampling distribution, and the cache invariant is maintained), returns
`S[index]`, and a lexeme occurring `k` times among the `|S|` entries is
selected by exactly `k` of the `|S|` equally likely indices — probability
`k / |S|` under the uniform draw. -/
theorem claim_C1 (d : Distr) (curLex : String) (S : List String) (g : Nat)
    (hc : CacheOK d) (hS : lookupModel d curLex = some S) (hne : S ≠ []) :
    (nextLex d curLex g).1 = S[g % S.length]? ∧
      (∀ x, ((Finset.range S.length).filter (fun i => S[i]? = some x)).card =
        S.count x) ∧
      CacheOK (nextLex d curLex g).2 :=
  ⟨(nextLex_eval d curLex S g hc hS hne).1,
   fun x => card_filter_eq_count S x,
   (nextLex_eval d curLex S g hc hS hne).2.2⟩

/-- Witness for C1 at a concrete model whose sentinel has successor list
`["a", "a", "b"]` and engine output `5`: the draw is index `5 % 3 = 2`, and
`"a"` (two occurrences among three entries) is selected by exactly two of the
three indices. -/
theorem claim_C1_witness :
    CacheOK (buildModel emptyDistr [(".", "a"), (".", "a"), (".", "b")]) ∧
    lookupModel (buildModel emptyDistr [(".", "a"), (".", "a"), (".", "b")]) "." =
      some ["a", "a", "b"] ∧
    (["a", "a", "b"] : List String) ≠ [] ∧
    (nextLex (buildModel emptyDistr [(".", "a"), (".", "a"), (".", "b")]) "." 5).1 =
      (["a", "a", "b"] : List String)[5 % (["a", "a", "b"] : List String).length]? ∧
    ((Finset.range (["a", "a", "b"] : List String).length).filter
        (fun i => (["a", "a", "b"] : List String)[i]? = some "a")).card =
      (["a", "a", "b"] : List String).count "a" :=
  ⟨by decide, by decide, by decide,
   (claim_C1 (buildModel emptyDistr [(".", "a"), (".", "a"), (".", "b")]) "."
      ["a", "a", "b"] 5 (by decide) (by decide) (by decide)).1,
   (claim_C1 (buildModel emptyDistr [(".", "a"), (".", "a"), (".", "b")]) "."
      ["a", "a", "b"] 5 (by decide) (by decide) (by decide)).2.1 "a"⟩

/-- C2: in any completed parse, the predecessor of the very first lexeme of
the whole input is the sentinel; within a chunk every lexeme after the first
has the immediately preceding lexeme of the same chunk as predecessor; and
the predecessor of the first lexeme of a later chunk is the last lexeme of
the previous chunk — which is the most recent chunk that produced a lexeme,
since a completed parse has no zero-lexeme chunk (`lexPairs_ne_nil`) — and
in particular an actual input lexeme, not the synthetic start marker. -/
theorem claim_C2 (tokss : List (List String)) (ps : List (String × String))
    (h : lexPairs none tokss = some ps) :
    (∀ pr, ps[0]? = some pr → pr.1 = kStartingLex) ∧
    (∀ ci ck j, tokss[ci]? = some ck → 0 < j → j < ck.length →
      (ps[chunkOffset tokss ci + j]?).map Prod.fst = ck[j - 1]?) ∧
    (∀ ci ck ck', tokss[ci]? = some ck → tokss[ci + 1]? = some ck' →
      (ps[chunkOffset tokss (ci + 1)]?).map Prod.fst = ck.getLast?) := by
  have hnn := lexPairs_ne_nil h
  have heq := lexPairs_eq none tokss hnn
  rw [heq] at h
  injection h with h
  have hps : ps = chunkPairs kStartingLex tokss.flatten := by
    rw [← h]; simp
  subst hps
  refine ⟨?_, ?_, ?_⟩
  · intro pr hpr
    cases hF : tokss.flatten with
    | nil => rw [hF] at hpr; simp [chunkPairs] at hpr
    | cons t F' =>
      rw [hF] at hpr
      simp only [chunkPairs, List.getElem?_cons_zero] at hpr
      injection hpr with hpr
      rw [← hpr]
  · intro ci ck j hci hj hjc
    have hF := flatten_decomp tokss ci ck hci
    have hlt : chunkOffset tokss ci + j < tokss.flatten.length := by
      rw [hF]
      simp only [List.length_append]
      have : chunkOffset tokss ci = ((tokss.take ci).flatten).length := rfl
      omega
    rw [chunkPairs_getElem_fst kStartingLex tokss.flatten _ hlt]
    have hidx : chunkOffset tokss ci + j = (chunkOffset tokss ci + (j - 1)) + 1 := by
      omega
    rw [hidx, List.getElem?_cons_succ, hF, List.getElem?_append]
    have hoff : chunkOffset tokss ci = ((tokss.take ci).flatten).length := rfl
    rw [if_pos (by simp only [List.length_append]; omega)]
    rw [List.getElem?_append_right (by omega)]
    have : chunkOffset tokss ci + (j - 1) - ((tokss.take ci).flatten).length = j - 1 := by
      omega
    rw [this]
  · intro ci ck ck' hci hci'
    have hcne : ck ≠ [] := hnn ck (List.getElem?_mem hci)
    have hc'ne : ck' ≠ [] := hnn ck' (List.getElem?_mem hci')
    have hclen : 0 < ck.length := List.length_pos.mpr hcne
    have hc'len : 0 < ck'.length := List.length_pos.mpr hc'ne
    have hB := chunkOffset_succ tokss ci ck hci
    have hF' := flatten_decomp tokss (ci + 1) ck' hci'
    have hoff' : chunkOffset tokss (ci + 1) = ((tokss.take (ci + 1)).flatten).length := rfl
    have hlt : chunkOffset tokss (ci + 1) < tokss.flatten.length := by
      rw [hF']
      simp only [List.length_append]
      omega
    rw [chunkPairs_getElem_fst kStartingLex tokss.flatten _ hlt]
    have hoff : chunkOffset tokss ci = ((tokss.take ci).flatten).length := rfl
    have hidx : chunkOffset tokss (ci + 1) =
        (chunkOffset tokss ci + ck.length - 1) + 1 := by
      omega
    rw [hidx, List.getElem?_cons_succ]
    have hFc := flatten_decomp tokss ci ck hci
    rw [hFc, List.getElem?_append]
    rw [if_pos (by simp only [List.length_append]; omega)]
    rw [List.getElem?_append_right (by omega)]
    have hlast : ck.getLast? = ck[ck.length - 1]? := List.getLast?_eq_getElem? ck
    rw [hlast]
    have : chunkOffset tokss ci + ck.length - 1 - ((tokss.take ci).flatten).length =
        ck.length - 1 := by
      omega
    rw [this]

/-- Witness for C2 at the spec's chunk-boundary example
`"a b"` then `"c d"`: the predecessor of `c` is `b` and the predecessor of
`a` is the sentinel. -/
theorem claim_C2_witness :
    lexPairs none [["a", "b"], ["c", "d"]] =
      some [(".", "a"), ("a", "b"), ("b", "c"), ("c", "d")] ∧
    (∀ pr, ([(".", "a"), ("a", "b"), ("b", "c"), ("c", "d")] :
        List (String × String))[0]? = some pr → pr.1 = kStartingLex) ∧
    (([(".", "a"), ("a", "b"), ("b", "c"), ("c", "d")] :
        List (String × String))[chunkOffset [["a", "b"], ["c", "d"]] 1]?).map Prod.fst =
      (["a", "b"] : List String).getLast? :=
  ⟨by decide,
   (claim_C2 [["a", "b"], ["c", "d"]] [(".", "a"), ("a", "b"), ("b", "c"), ("c", "d")]
      (by decide)).1,
   (claim_C2 [["a", "b"], ["c", "d"]] [(".", "a"), ("a", "b"), ("b", "c"), ("c", "d")]
      (by decide)).2.2 0 ["a", "b"] ["c", "d"] (by decide) (by decide)⟩

/-- C3: a run of the generation phase that terminates does so only after the
step counter has exceeded the configured soft limit `limit` and the freshly
drawn lexeme equals the sentinel; that final sentinel is emitted (it is the
last element of the output), at least `limit + 1` lexemes are emitted, and no
post-limit draw before the final one is the sentinel — the run stops at the
first post-limit sentinel draw, inclusive, never earlier and never on a
non-sentinel draw. -/
theorem claim_C3 (d : Distr) (g : Nat → Nat) (limit fuel : Nat)
    (out : List (String × Bool)) (h : generate d g limit fuel = some out) :
    limit + 1 ≤ out.length ∧
    (out.getLast?).map Prod.fst = some kTerminatorLex ∧
    (∀ p e, limit + 1 ≤ p → p + 1 < out.length → out[p]? = some e →
      e.1 ≠ kTerminatorLex) := by
  obtain ⟨lex0, hn, hloop⟩ := generate_inv d g limit fuel out h
  obtain ⟨hlen, hlim, hlast, hmid⟩ := genLoop_spec g limit fuel _ lex0 0 1 out hloop
  refine ⟨by omega, ?_, ?_⟩
  · rw [hlast]; rfl
  · intro p e hp hpl hpe
    exact hmid p e (by omega) hpl (by omega) hpe

/-- Witness for C3: a model in which the sentinel maps to itself, soft limit
`0`; the run emits two lexemes and stops on the first post-limit sentinel
draw. -/
theorem claim_C3_witness :
    generate (buildModel emptyDistr [(".", ".")]) (fun _ => 0) 0 5 =
      some [(".", false), (".", false)] ∧
    (0 + 1 ≤ ([(".", false), (".", false)] : List (String × Bool)).length ∧
      (([(".", false), (".", false)] : List (String × Bool)).getLast?).map Prod.fst =
        some kTerminatorLex ∧
      (∀ p e, 0 + 1 ≤ p →
        p + 1 < ([(".", false), (".", false)] : List (String × Bool)).length →
        ([(".", false), (".", false)] : List (String × Bool))[p]? = some e →
        e.1 ≠ kTerminatorLex)) :=
  ⟨by decide,
   claim_C3 (buildModel emptyDistr [(".", ".")]) (fun _ => 0) 0 5
     [(".", false), (".", false)] (by decide)⟩

/-- C4 (code bug): a whitespace-delimited chunk yielding zero lexemes does
NOT complete without fault.  The input `"\x01"` (a single control character,
matching none of the four lexeme categories) forms one chunk whose lexeme
list is empty; on such a chunk the source's loop executes `DBG_APPEND(*it)`
with `it` already equal to the end-of-sequence `sregex_token_iterator` —
undefined behaviour, modelled as the faulting parse `none` — instead of
contributing nothing and moving on. -/
theorem claim_C4 :
    lexChunk "\x01" = [] ∧
    chunksOf "\x01" = ["\x01"] ∧
    parseInput "\x01" = none := by decide

/-- C5 (corrected): the space emitted after an output lexeme is governed by
the *freshly drawn next* lexeme, not by the lexeme just emitted: the source
tests `is_punctation(lex = distr.nextLex(lex))`.  Each recorded flag (space
after this lexeme) equals "the next emitted lexeme is not
punctuation-classified", and the final emission has no trailing space. -/
theorem claim_C5 (d : Distr) (g : Nat → Nat) (limit fuel : Nat)
    (out : List (String × Bool)) (h : generate d g limit fuel = some out) :
    (∀ p e e', out[p]? = some e → out[p + 1]? = some e' →
      e.2 = !isPunctation e'.1) ∧
    (out.getLast?).map Prod.snd = some false := by
  obtain ⟨lex0, hn, hloop⟩ := generate_inv d g limit fuel out h
  exact genLoop_space g limit fuel _ lex0 0 1 out hloop

/-- Counterexample to C5 as stated: in the model `"." ↦ ["a"]`,
`"a" ↦ ["."]` with soft limit `0`, the run emits `"a"` followed by `"."`.
The lexeme `"a"` just emitted is not punctuation-classified, yet no space is
emitted after it (its flag is `false`, because the *next* lexeme `"."` is
punctuation) — refuting "a space is emitted iff the lexeme just emitted is
not punctuation-classified". -/
theorem claim_C5_cex :
    generate (buildModel emptyDistr [(".", "a"), ("a", ".")]) (fun _ => 0) 0 5 =
      some [("a", false), (".", false)] ∧
    isPunctation "a" = false := by decide

/-- Witness for the amended C5 at the same concrete run. -/
theorem claim_C5_witness :
    generate (buildModel emptyDistr [(".", "a"), ("a", ".")]) (fun _ => 0) 0 5 =
      some [("a", false), (".", false)] ∧
    ((∀ p e e', ([("a", false), (".", false)] : List (String × Bool))[p]? = some e →
        ([("a", false), (".", false)] : List (String × Bool))[p + 1]? = some e' →
        e.2 = !isPunctation e'.1) ∧
      (([("a", false), (".", false)] : List (String × Bool)).getLast?).map Prod.snd =
        some false) :=
  ⟨by decide,
   claim_C5 (buildModel emptyDistr [(".", "a"), ("a", ".")]) (fun _ => 0) 0 5
     [("a", false), (".", false)] (by decide)⟩

/-- C6: `nextLex` fails (by `ERR`, aborting the process) exactly when the
queried lexeme has no entry or its entry's successor sequence is empty; on
success the returned lexeme is the element of the stored successor sequence
at the drawn index (the sequence is used unchanged); and the failure is
fatal to the generation run — a loop iteration whose draw fails produces
nothing (no retry, no recovery). -/
theorem claim_C6 (d : Distr) (curLex : String) (g : Nat) (hc : CacheOK d) :
    ((nextLex d curLex g).1 = none ↔
      (lookupModel d curLex = none ∨ lookupModel d curLex = some [])) ∧
    (∀ x, (nextLex d curLex g).1 = some x →
      ∃ S, lookupModel d curLex = some S ∧ S[g % S.length]? = some x) ∧
    (∀ (g' : Nat → Nat) limit fuel i t, g' t = g →
      (nextLex d curLex g).1 = none →
      genLoop g' limit (fuel + 1) d curLex i t = none) := by
  refine ⟨⟨?_, ?_⟩, ?_, ?_⟩
  · intro hnone
    cases hS : lookupModel d curLex with
    | none => exact Or.inl rfl
    | some S =>
      cases S with
      | nil => exact Or.inr rfl
      | cons a S' =>
        have heval := (nextLex_eval d curLex (a :: S') g hc hS (by simp)).1
        rw [hnone] at heval
        have hlt : g % (a :: S').length < (a :: S').length :=
          Nat.mod_lt _ (by simp)
        rw [List.getElem?_eq_getElem hlt] at heval
        simp at heval
  · intro hor
    rcases hor with hN | hE
    · exact (nextLex_fail_absent d curLex g hN).1
    · exact (nextLex_fail_empty d curLex g hE).1
  · intro x hx
    cases hS : lookupModel d curLex with
    | none =>
      rw [(nextLex_fail_absent d curLex g hS).1] at hx
      exact absurd hx (by simp)
    | some S =>
      cases S with
      | nil =>
        rw [(nextLex_fail_empty d curLex g hS).1] at hx
        exact absurd hx (by simp)
      | cons a S' =>
        refine ⟨a :: S', rfl, ?_⟩
        rw [← (nextLex_eval d curLex (a :: S') g hc hS (by simp)).1]
        exact hx
  · intro g' limit fuel i t hg hnone
    simp only [genLoop]
    rw [hg, hnone]

/-- Witness for C6 at a concrete model: the lexeme `"a"` has an entry with
an empty successor sequence, and the call faults. -/
theorem claim_C6_witness :
    CacheOK (buildModel emptyDistr [(".", "a")]) ∧
    ((nextLex (buildModel emptyDistr [(".", "a")]) "a" 0).1 = none ↔
      (lookupModel (buildModel emptyDistr [(".", "a")]) "a" = none ∨
        lookupModel (buildModel emptyDistr [(".", "a")]) "a" = some [])) :=
  ⟨by decide, (claim_C6 (buildModel emptyDistr [(".", "a")]) "a" 0 (by decide)).1⟩

/-- C7: after any sequence of `add` calls, every lexeme that appeared as a
predecessor or as a successor has an entry in the model, and no `add` ever
removes an entry or an element of a successor sequence — every previously
stored sequence is a prefix of (extends to) the final stored sequence. -/
theorem claim_C7 (d : Distr) (ps : List (String × String)) :
    (∀ p s, (p, s) ∈ ps →
      (lookupModel (buildModel d ps) p).isSome ∧
      (lookupModel (buildModel d ps) s).isSome) ∧
    (∀ k S, lookupModel d k = some S →
      ∃ T, lookupModel (buildModel d ps) k = some (S ++ T)) :=
  ⟨fun p s h => buildModel_mem_isSome d ps p s h,
   fun k _S h => buildModel_grow d ps k h⟩

/-- Witness for C7: after `add(".", "a")` both lexemes are interned, and a
later unrelated `add` only extends stored sequences. -/
theorem claim_C7_witness :
    ((".", "a") ∈ ([(".", "a")] : List (String × String)) ∧
      (lookupModel (buildModel emptyDistr [(".", "a")]) ".").isSome ∧
      (lookupModel (buildModel emptyDistr [(".", "a")]) "a").isSome) ∧
    (lookupModel (buildModel emptyDistr [(".", "a")]) "." = some ["a"] ∧
      ∃ T, lookupModel
          (buildModel (buildModel emptyDistr [(".", "a")]) [("x", "y")]) "." =
        some (["a"] ++ T)) :=
  ⟨⟨by decide, (claim_C7 emptyDistr [(".", "a")]).1 "." "a" (by decide)⟩,
   ⟨by decide,
    (claim_C7 (buildModel emptyDistr [(".", "a")]) [("x", "y")]).2 "." ["a"]
      (by decide)⟩⟩

/-- C8 (corrected): for an input yielding at least one lexeme,
`uniqueLexCount` equals the number of distinct extracted lexeme strings,
plus one for the sentinel when the sentinel's text is not among them.  (The
claim's unrestricted form fails on the empty input: see the
counterexample — zero lexemes give a model with zero entries, not one.) -/
theorem claim_C8 (tokss : List (List String)) (ps : List (String × String))
    (h : lexPairs none tokss = some ps) (hne : tokss.flatten ≠ []) :
    uniqueLexCount (buildModel emptyDistr ps) =
      tokss.flatten.dedup.length +
        (if kStartingLex ∈ tokss.flatten then 0 else 1) := by
  have hnn := lexPairs_ne_nil h
  have heq := lexPairs_eq none tokss hnn
  rw [heq] at h
  injection h with h
  have hps : ps = chunkPairs kStartingLex tokss.flatten := by rw [← h]; simp
  subst hps
  have hkeys : (keys (buildModel emptyDistr
      (chunkPairs kStartingLex tokss.flatten))).toFinset =
      insert kStartingLex tokss.flatten.toFinset := by
    rw [buildModel_keys_toFinset]
    have hsnd : (chunkPairs kStartingLex tokss.flatten).map Prod.snd = tokss.flatten :=
      chunkPairs_snd _ _
    rw [hsnd]
    ext a
    constructor
    · intro ha
      simp only [Finset.mem_union, List.mem_toFinset] at ha
      rcases ha with (h0 | hfst) | hsnd'
      · simp [keys, emptyDistr] at h0
      · rcases chunkPairs_fst_subset kStartingLex tokss.flatten a hfst with h' | h'
        · simp [h']
        · simp [h']
      · simp [hsnd']
    · intro ha
      simp only [Finset.mem_insert, List.mem_toFinset] at ha
      simp only [Finset.mem_union, List.mem_toFinset]
      rcases ha with h' | h'
      · subst h'
        exact Or.inl (Or.inr (chunkPairs_fst_head kStartingLex tokss.flatten hne))
      · exact Or.inr h'
  have hnodup : (keys (buildModel emptyDistr
      (chunkPairs kStartingLex tokss.flatten))).Nodup :=
    buildModel_keys_nodup emptyDistr _ (by simp [keys, emptyDistr])
  rw [uniqueLexCount_eq_keys_length, ← List.toFinset_card_of_nodup hnodup, hkeys]
  by_cases hmem : kStartingLex ∈ tokss.flatten
  · rw [Finset.insert_eq_self.mpr (List.mem_toFinset.mpr hmem), List.card_toFinset]
    simp [hmem]
  · rw [Finset.card_insert_of_not_mem (fun hcon => hmem (List.mem_toFinset.mp hcon)),
      List.card_toFinset]
    simp [hmem]

/-- Counterexample to C8 as stated: the empty input yields zero lexemes, so
the extracted-lexeme list is empty and the sentinel is not among them; the
claim's formula demands `0 + 1 = 1` interned lexeme, but the model is empty
(`uniqueLexCount = 0`). -/
theorem claim_C8_cex :
    parseInput "" = some [] ∧
    ((chunksOf "").map lexChunk).flatten = ([] : List String) ∧
    kStartingLex ∉ ([] : List String) ∧
    uniqueLexCount (buildModel emptyDistr []) ≠
      ([] : List String).dedup.length + 1 := by decide

/-- Witness for the amended C8 at the one-lexeme input `"a"`: two interned
lexemes — the lexeme `"a"` plus the sentinel. -/
theorem claim_C8_witness :
    lexPairs none [["a"]] = some [(".", "a")] ∧
    ([["a"]] : List (List String)).flatten ≠ [] ∧
    uniqueLexCount (buildModel emptyDistr [(".", "a")]) =
      ([["a"]] : List (List String)).flatten.dedup.length +
        (if kStartingLex ∈ ([["a"]] : List (List String)).flatten then 0 else 1) :=
  ⟨by decide, by decide, claim_C8 [["a"]] [(".", "a")] (by decide) (by decide)⟩

/-- C9 (corrected): a `nextLex` call on a lexeme that has an entry —
in particular every successful call — leaves the model's key set, every
stored successor sequence and `uniqueLexCount` unchanged; but a failing call
on a lexeme with *no* entry first inserts an empty entry for it through
`operator[]`, growing the key set and `uniqueLexCount` by one, before the
process aborts.  (The claim's "every call leaves the model unchanged" fails
on that path: see the counterexample.) -/
theorem claim_C9 (d : Distr) (curLex : String) (g : Nat) :
    ((lookupModel d curLex).isSome →
      (nextLex d curLex g).2.model = d.model ∧
      uniqueLexCount (nextLex d curLex g).2 = uniqueLexCount d) ∧
    (lookupModel d curLex = none →
      (nextLex d curLex g).1 = none ∧
      (nextLex d curLex g).2.model = d.model ++ [(curLex, [])] ∧
      uniqueLexCount (nextLex d curLex g).2 = uniqueLexCount d + 1) := by
  constructor
  · intro hsome
    have h1 : alistTryEmplace d.model curLex ([] : List String) = d.model :=
      alistTryEmplace_of_isSome _ (by simpa [lookupModel] using hsome)
    have hmod : (nextLex d curLex g).2.model = d.model := by
      unfold nextLex
      simp only [h1]
      by_cases hz : ((alistFind d.model curLex).getD []).length = 0 <;> simp [hz]
    exact ⟨hmod, by unfold uniqueLexCount; rw [hmod]⟩
  · intro hnone
    obtain ⟨hfail, hmodel⟩ := nextLex_fail_absent d curLex g hnone
    refine ⟨hfail, hmodel, ?_⟩
    unfold uniqueLexCount
    rw [hmodel]
    simp

/-- Counterexample to C9 as stated: querying the unknown lexeme `"x"` fails
with the lookup error, yet grows the model from two entries to three —
`operator[]` inserted an empty entry for `"x"` before the abort. -/
theorem claim_C9_cex :
    (nextLex (buildModel emptyDistr [(".", "a")]) "x" 0).1 = none ∧
    uniqueLexCount (buildModel emptyDistr [(".", "a")]) = 2 ∧
    uniqueLexCount (nextLex (buildModel emptyDistr [(".", "a")]) "x" 0).2 = 3 := by
  decide

/-- Witness for the amended C9: a successful call on the sentinel leaves the
model and its entry count unchanged. -/
theorem claim_C9_witness :
    (lookupModel (buildModel emptyDistr [(".", "a")]) ".").isSome ∧
    ((nextLex (buildModel emptyDistr [(".", "a")]) "." 0).2.model =
      (buildModel emptyDistr [(".", "a")]).model ∧
      uniqueLexCount (nextLex (buildModel emptyDistr [(".", "a")]) "." 0).2 =
        uniqueLexCount (buildModel emptyDistr [(".", "a")])) :=
  ⟨by decide, (claim_C9 (buildModel emptyDistr [(".", "a")]) "." 0).1 (by decide)⟩

/-- C10: whenever the parse interned at least one lexeme
(`uniqueLexCount > 0`), the sentinel has an entry whose successor sequence is
non-empty (it begins with the globally first extracted lexeme), so the
generator's initial draw `nextLex(kStartingLex)` cannot fail, whatever the
engine outputs. -/
theorem claim_C10 (tokss : List (List String)) (ps : List (String × String))
    (h : lexPairs none tokss = some ps)
    (hpos : 0 < uniqueLexCount (buildModel emptyDistr ps)) :
    ∃ S, lookupModel (buildModel emptyDistr ps) kStartingLex = some S ∧ S ≠ [] ∧
      ∀ g, ((nextLex (buildModel emptyDistr ps) kStartingLex g).1).isSome := by
  have hnn := lexPairs_ne_nil h
  have heq := lexPairs_eq none tokss hnn
  rw [heq] at h
  injection h with h
  have hps : ps = chunkPairs kStartingLex tokss.flatten := by rw [← h]; simp
  cases hF : tokss.flatten with
  | nil =>
    rw [hps, hF] at hpos
    simp [chunkPairs, buildModel, uniqueLexCount, emptyDistr] at hpos
  | cons t F' =>
    have hps' : ps = (kStartingLex, t) :: chunkPairs t F' := by
      rw [hps, hF]; rfl
    have h1 : lookupModel (add emptyDistr kStartingLex t) kStartingLex = some [t] := by
      rw [lookup_add]
      simp [lookupModel, emptyDistr, alistFind]
    obtain ⟨T, hT⟩ := buildModel_grow (add emptyDistr kStartingLex t)
      (chunkPairs t F') kStartingLex h1
    have hlook : lookupModel (buildModel emptyDistr ps) kStartingLex =
        some ([t] ++ T) := by
      rw [hps', buildModel_cons]
      exact hT
    refine ⟨[t] ++ T, hlook, by simp, ?_⟩
    intro g
    have hcache : CacheOK (buildModel emptyDistr ps) := by
      intro e he
      rw [buildModel_cache] at he
      simp [emptyDistr] at he
    have heval := (nextLex_eval (buildModel emptyDistr ps) kStartingLex ([t] ++ T) g
      hcache hlook (by simp)).1
    rw [heval]
    have hlt : g % ([t] ++ T).length < ([t] ++ T).length :=
      Nat.mod_lt _ (by simp)
    rw [List.getElem?_eq_getElem hlt]
    simp

/-- Witness for C10 at the one-lexeme input `"a"`: the sentinel's successor
sequence is `["a"]` and the initial draw succeeds. -/
theorem claim_C10_witness :
    lexPairs none [["a"]] = some [(".", "a")] ∧
    0 < uniqueLexCount (buildModel emptyDistr [(".", "a")]) ∧
    (∃ S, lookupModel (buildModel emptyDistr [(".", "a")]) kStartingLex = some S ∧
      S ≠ [] ∧
      ∀ g, ((nextLex (buildModel emptyDistr [(".", "a")]) kStartingLex g).1).isSome) :=
  ⟨by decide, by decide, claim_C10 [["a"]] [(".", "a")] (by decide) (by decide)⟩

end GenSimilarText
